import Mathlib

/-!
Shallow embedding of src/board.py (classes Section and Board) of the
sudoku-solver repository.

Modelling conventions:
- A Python cell holds either None (empty) or an int; we model cells as
  Option Int (none = None, some n = the int n).  Candidate lists mentioned in
  comments are never stored by any code in the repository, so they do not
  appear in the model.
- A raised exception (IndexError / ValueError) is modelled as the value none
  of an Option result type.  For the mutating operation set_board_item we
  return the resulting state together with a success flag, so that the state
  at the moment an exception propagates is part of the model.
- Python list indexing l[i] accepts negative indices (wrapping once from the
  end) and raises IndexError otherwise; pyIdx/pyGet/pySet model this exactly.
- Python integer division // and modulo % with positive divisor coincide with
  Int.ediv and Int.emod; on Int the / and % operators are exactly these.
-/

/-- Cell value of the board: None (empty) or a Python int. -/
abbrev Cell := Option Int

/-- Resolve a Python list index of a list of length len: a nonnegative index
must be below len, a negative index wraps once from the end, anything else
raises IndexError (none). -/
def pyIdx (len : Nat) (i : Int) : Option Nat :=
  if 0 ≤ i ∧ i < (len : Int) then some i.toNat
  else if -(len : Int) ≤ i ∧ i < 0 then some (i + (len : Int)).toNat
  else none

/-- Python list read l[i]. -/
def pyGet {α : Type} (l : List α) (i : Int) : Option α :=
  (pyIdx l.length i).bind (fun n => l[n]?)

/-- Python list write l[i] = v, returning the updated list. -/
def pySet {α : Type} (l : List α) (i : Int) (v : α) : Option (List α) :=
  (pyIdx l.length i).map (fun n => l.set n v)

/-- Section: a 3x3 block of cells stored as a flat list, slot (x, y) at flat
index x + y * 3 (class Section of board.py). -/
structure Section where
  slots : List Cell
deriving DecidableEq

/-- Section.__init__: nine slots, each set to None. -/
def Section.init : Section := ⟨List.replicate 9 none⟩

/-- Section.get_at: checked read of the slot at (x, y); raises (none) when x
or y is outside [0, 2]. -/
def Section.get_at (s : Section) (x y : Int) : Option Cell :=
  if 0 ≤ x ∧ x ≤ 2 ∧ 0 ≤ y ∧ y ≤ 2 then pyGet s.slots (x + y * 3) else none

/-- Section.set_at: write of the slot at (x, y).  The source performs NO
bounds check here; the only failure is the underlying list write raising
IndexError. -/
def Section.set_at (s : Section) (item : Cell) (x y : Int) : Option Section :=
  (pySet s.slots (x + y * 3) item).map Section.mk

/-- Board: a Section whose nine slots are themselves Sections (class Board of
board.py, which inherits from Section). -/
structure Board where
  slots : List Section
deriving DecidableEq

/-- Board.__init__: Section.__init__ followed by set_sections, which stores a
fresh empty Section in each of the nine meta slots. -/
def Board.init : Board := ⟨List.replicate 9 Section.init⟩

/-- Board.get_at, inherited from Section: checked read of the meta slot at
(x, y); raises (none) when x or y is outside [0, 2]. -/
def Board.get_at (b : Board) (x y : Int) : Option Section :=
  if 0 ≤ x ∧ x ≤ 2 ∧ 0 ≤ y ∧ y ≤ 2 then pyGet b.slots (x + y * 3) else none

/-- Board.get_board_item: checked read of cell (x, y); raises (none) when x
or y is outside [0, 8], else reads slot (x mod 3, y mod 3) of the Section at
meta slot (x div 3, y div 3). -/
def Board.get_board_item (b : Board) (x y : Int) : Option Cell :=
  if 0 ≤ x ∧ x ≤ 8 ∧ 0 ≤ y ∧ y ≤ 8 then
    match Board.get_at b (x / 3) (y / 3) with
    | none => none
    | some sec => Section.get_at sec (x % 3) (y % 3)
  else none

/-- Board.set_board_item: self.get_at(x // 3, y // 3).set_at(number, x mod 3,
y mod 3).  The fetched Section is mutated in place in Python; the model
reinstalls the updated Section at the meta slot it was read from.  Returns
the resulting board state together with a success flag; a raised exception
(flag false) leaves the board unchanged, because get_at raises before any
slot is written. -/
def Board.set_board_item (b : Board) (number : Cell) (x y : Int) : Board × Bool :=
  match Board.get_at b (x / 3) (y / 3) with
  | none => (b, false)
  | some sec =>
    match Section.set_at sec number (x % 3) (y % 3) with
    | none => (b, false)
    | some sec2 =>
      match pySet b.slots ((x / 3) + (y / 3) * 3) sec2 with
      | none => (b, false)
      | some slots2 => (⟨slots2⟩, true)

/-- Python range(9) as the list of its elements. -/
def idx9 : List Int := [0, 1, 2, 3, 4, 5, 6, 7, 8]

/-- Python range(3) as the list of its elements. -/
def idx3 : List Int := [0, 1, 2]

/-- Local coordinates scanned by is_section_valid, in source order (x outer,
y inner). -/
def boxPts : List (Int × Int) := idx3.flatMap (fun x => idx3.map (fun y => (x, y)))

/-- Global coordinates scanned by is_solved and get_copy, in source order
(x outer, y inner). -/
def allPts : List (Int × Int) := idx9.flatMap (fun x => idx9.map (fun y => (x, y)))

/-- Sequential cell reads of a list comprehension; the first raised exception
propagates. -/
def seqCells (f : Int → Option Cell) : List Int → Option (List Cell)
  | [] => some []
  | i :: rest =>
    match f i with
    | none => none
    | some c =>
      match seqCells f rest with
      | none => none
      | some cs => some (c :: cs)

/-- Board.get_row: the cells at (x, y) for x in range(9). -/
def Board.get_row (b : Board) (y : Int) : Option (List Cell) :=
  seqCells (fun x => Board.get_board_item b x y) idx9

/-- Board.get_column: the cells at (x, y) for y in range(9). -/
def Board.get_column (b : Board) (x : Int) : Option (List Cell) :=
  seqCells (fun y => Board.get_board_item b x y) idx9

/-- Shared body of the three validity scans of board.py: walk the listed
coordinates through the getter g, skip None cells, and for an int cell n
look up taken_numbers[n - 1]; return False on a repeat, else mark the digit
taken and continue.  Exceptions of the getter or of the taken_numbers
accesses propagate (none). -/
def genScan (g : Int → Int → Option Cell) : List (Int × Int) → List Nat → Option Bool
  | [], _ => some true
  | (x, y) :: rest, taken =>
    match g x y with
    | none => none
    | some none => genScan g rest taken
    | some (some n) =>
      match pyGet taken (n - 1) with
      | none => none
      | some t =>
        if t ≠ 0 then some false
        else
          match pySet taken (n - 1) 1 with
          | none => none
          | some taken2 => genScan g rest taken2

/-- Board.is_line_valid_horizontal: scan of the cells (x, y) for x in
range(9) with taken_numbers = [0] * 9. -/
def Board.is_line_valid_horizontal (b : Board) (y : Int) : Option Bool :=
  genScan (fun px py => Board.get_board_item b px py)
    (idx9.map (fun x => (x, y))) (List.replicate 9 0)

/-- Board.is_line_valid_vertical: scan of the cells (x, y) for y in range(9)
with taken_numbers = [0] * 9. -/
def Board.is_line_valid_vertical (b : Board) (x : Int) : Option Bool :=
  genScan (fun px py => Board.get_board_item b px py)
    (idx9.map (fun y => (x, y))) (List.replicate 9 0)

/-- Board.is_section_valid: fetch the Section at meta slot (sx, sy) (checked
read, raising for sx or sy outside [0, 2]) and scan its slots at (x, y) for
x in range(3), y in range(3). -/
def Board.is_section_valid (b : Board) (sx sy : Int) : Option Bool :=
  match Board.get_at b sx sy with
  | none => none
  | some s => genScan (fun lx ly => Section.get_at s lx ly) boxPts (List.replicate 9 0)

/-- Sequential conjunction of already-thunked checks, with the source's early
return: the first False or the first raised exception stops the scan. -/
def seqAnd : List (Unit → Option Bool) → Option Bool
  | [] => some true
  | f :: rest =>
    match f () with
    | none => none
    | some false => some false
    | some true => seqAnd rest

/-- Board.is_valid: all vertical lines, then all horizontal lines, then all
sections (x outer, y inner), with early return on the first failure. -/
def Board.is_valid (b : Board) : Option Bool :=
  seqAnd ((idx9.map (fun x => (fun _ : Unit => Board.is_line_valid_vertical b x)))
    ++ (idx9.map (fun y => (fun _ : Unit => Board.is_line_valid_horizontal b y)))
    ++ (idx3.flatMap (fun x => idx3.map (fun y =>
          (fun _ : Unit => Board.is_section_valid b x y)))))

/-- Loop body of Board.is_solved over the remaining coordinates: return False
at the first None cell, and only when no cell is None fall through to
is_valid. -/
def solvedScan (b : Board) : List (Int × Int) → Option Bool
  | [] => Board.is_valid b
  | (x, y) :: rest =>
    match Board.get_board_item b x y with
    | none => none
    | some none => some false
    | some (some _) => solvedScan b rest

/-- Board.is_solved: scan all 81 cells (x outer, y inner) for a blank, then
check validity. -/
def Board.is_solved (b : Board) : Option Bool :=
  solvedScan b allPts

/-- Loop body of Board.get_copy: read each listed cell of b and write it into
the board under construction; a raised exception propagates. -/
def copyLoop (b : Board) : List (Int × Int) → Board → Option Board
  | [], nb => some nb
  | (x, y) :: rest, nb =>
    match Board.get_board_item b x y with
    | none => none
    | some c =>
      match Board.set_board_item nb c x y with
      | (nb2, true) => copyLoop b rest nb2
      | (_, false) => none

/-- Board.get_copy: a fresh Board() receiving every cell of b (x outer, y
inner). -/
def Board.get_copy (b : Board) : Option Board :=
  copyLoop b allPts Board.init

/-- Python int(char): the value of a decimal digit character, ValueError
(none) otherwise (load_board only ever calls it on non-space characters). -/
def charToInt (c : Char) : Option Int :=
  if ('0' ≤ c ∧ c ≤ '9') then some ((c.toNat : Int) - (('0').toNat : Int)) else none

/-- Inner loop of Board.load_board over one input row: enumerate the
characters with counter x, break out of the row at x ≥ 9, skip spaces, and write
int(char) at (x, y) otherwise; exceptions propagate. -/
def loadLine : Board → List Char → Int → Int → Option Board
  | b, [], _, _ => some b
  | b, c :: rest, x, y =>
    if 9 ≤ x then some b
    else if c = ' ' then loadLine b rest (x + 1) y
    else
      match charToInt c with
      | none => none
      | some n =>
        match Board.set_board_item b (some n) x y with
        | (b2, true) => loadLine b2 rest (x + 1) y
        | (_, false) => none

/-- Outer loop of Board.load_board: enumerate the lines with counter y. -/
def loadLines : Board → List (List Char) → Int → Option Board
  | b, [], _ => some b
  | b, ln :: rest, y =>
    match loadLine b ln 0 y with
    | none => none
    | some b2 => loadLines b2 rest (y + 1)

/-- Board.load_board: the file contents after splitlines are modelled as the
list of lines, each a list of characters. -/
def Board.load_board (b : Board) (lines : List (List Char)) : Option Board :=
  loadLines b lines 0

/-- Well-formed Section: exactly nine slots (true of every Section the
constructor produces, and preserved by every operation). -/
def SecWF (s : Section) : Prop := s.slots.length = 9

instance (s : Section) : Decidable (SecWF s) := by unfold SecWF; infer_instance

/-- Well-formed Board: nine meta slots, each a well-formed Section. -/
def BoardWF (b : Board) : Prop := b.slots.length = 9 ∧ ∀ s ∈ b.slots, SecWF s

instance (b : Board) : Decidable (BoardWF b) := by unfold BoardWF; infer_instance

/-- Well-formed cell per the data model: empty, or a digit 1 to 9. -/
def CellWF : Cell → Prop
  | none => True
  | some n => 1 ≤ n ∧ n ≤ 9

instance (c : Cell) : Decidable (CellWF c) :=
  match c with
  | none => isTrue trivial
  | some n => inferInstanceAs (Decidable (1 ≤ n ∧ n ≤ 9))

/-- Every cell of the board is empty or a digit 1 to 9. -/
def CellsWF (b : Board) : Prop := ∀ s ∈ b.slots, ∀ c ∈ s.slots, CellWF c

instance (b : Board) : Decidable (CellsWF b) := by unfold CellsWF; infer_instance

/-- Specification-side accessor: the cell at (x, y), with the empty cell as
default (only used where get_board_item provably succeeds). -/
def Board.cellAt (b : Board) (x y : Int) : Cell :=
  (Board.get_board_item b x y).getD none

/-- The digits of row y in scan order, empty cells dropped. -/
def Board.rowDigits (b : Board) (y : Int) : List Int :=
  (idx9.map (fun x => Board.cellAt b x y)).filterMap id

/-- The digits of column x in scan order, empty cells dropped. -/
def Board.colDigits (b : Board) (x : Int) : List Int :=
  (idx9.map (fun y => Board.cellAt b x y)).filterMap id

/-- The digits of the box at meta coordinates (sx, sy) in scan order, empty
cells dropped; local slot (lx, ly) of the box is global cell
(sx * 3 + lx, sy * 3 + ly). -/
def Board.boxDigits (b : Board) (sx sy : Int) : List Int :=
  (boxPts.map (fun p => Board.cellAt b (sx * 3 + p.1) (sy * 3 + p.2))).filterMap id

/-- Character of the modelled file at column x of row y, when both exist. -/
def textCharAt (lines : List (List Char)) (x y : Nat) : Option Char :=
  (lines[y]?).bind (fun ln => ln[x]?)

/-! ### Basic facts about the Python list primitives -/

theorem pyIdx_pos (len : Nat) (i : Int) (h0 : 0 ≤ i) (h1 : i < (len : Int)) :
    pyIdx len i = some i.toNat := by
  unfold pyIdx
  rw [if_pos ⟨h0, h1⟩]

theorem pyGet_pos {α : Type} (l : List α) (i : Int) (h0 : 0 ≤ i)
    (h1 : i < (l.length : Int)) : pyGet l i = l[i.toNat]? := by
  unfold pyGet
  rw [pyIdx_pos _ _ h0 h1]
  rfl

theorem pySet_pos {α : Type} (l : List α) (i : Int) (v : α) (h0 : 0 ≤ i)
    (h1 : i < (l.length : Int)) : pySet l i v = some (l.set i.toNat v) := by
  unfold pySet
  rw [pyIdx_pos _ _ h0 h1]
  rfl

/-! ### Reading and writing in-range cells -/

theorem Section.get_at_in_bounds (s : Section) (hwf : SecWF s) (x y : Int)
    (h : 0 ≤ x ∧ x ≤ 2 ∧ 0 ≤ y ∧ y ≤ 2) :
    Section.get_at s x y = s.slots[(x + y * 3).toNat]? := by
  unfold Section.get_at
  rw [if_pos h, pyGet_pos _ _ (by omega) (by rw [hwf]; omega)]

theorem Board.get_at_meta_in_bounds (b : Board) (hwf : BoardWF b) (x y : Int)
    (h : 0 ≤ x ∧ x ≤ 2 ∧ 0 ≤ y ∧ y ≤ 2) :
    Board.get_at b x y = b.slots[(x + y * 3).toNat]? := by
  unfold Board.get_at
  rw [if_pos h, pyGet_pos _ _ (by omega) (by rw [hwf.1]; omega)]

/-- In a well-formed board the meta slot that cell (x, y) routes to exists. -/
theorem Board.slot_for (b : Board) (hwf : BoardWF b) (x y : Int)
    (hx : 0 ≤ x) (hx8 : x ≤ 8) (hy : 0 ≤ y) (hy8 : y ≤ 8) :
    ∃ s, b.slots[((x / 3) + (y / 3) * 3).toNat]? = some s ∧ s ∈ b.slots ∧ SecWF s := by
  have hidx : ((x / 3) + (y / 3) * 3).toNat < b.slots.length := by rw [hwf.1]; omega
  refine ⟨b.slots[((x / 3) + (y / 3) * 3).toNat], List.getElem?_eq_getElem hidx, ?_, ?_⟩
  · exact List.getElem?_mem (List.getElem?_eq_getElem hidx)
  · exact hwf.2 _ (List.getElem?_mem (List.getElem?_eq_getElem hidx))

/-- Routing form of an in-range read: through the meta slot at flat index
(x / 3) + (y / 3) * 3 to the local flat index (x % 3) + (y % 3) * 3. -/
theorem Board.get_board_item_route (b : Board) (hwf : BoardWF b) (x y : Int)
    (hx : 0 ≤ x) (hx8 : x ≤ 8) (hy : 0 ≤ y) (hy8 : y ≤ 8) :
    Board.get_board_item b x y =
      match b.slots[((x / 3) + (y / 3) * 3).toNat]? with
      | none => none
      | some s => s.slots[((x % 3) + (y % 3) * 3).toNat]? := by
  obtain ⟨s, hs, _, hswf⟩ := Board.slot_for b hwf x y hx hx8 hy hy8
  unfold Board.get_board_item
  rw [if_pos ⟨hx, hx8, hy, hy8⟩,
    Board.get_at_meta_in_bounds b hwf _ _ (by constructor <;> omega), hs]
  exact Section.get_at_in_bounds s hswf _ _ (by constructor <;> omega)

/-- An in-range read of a well-formed board succeeds and returns cellAt. -/
theorem Board.get_board_item_some (b : Board) (hwf : BoardWF b) (x y : Int)
    (hx : 0 ≤ x) (hx8 : x ≤ 8) (hy : 0 ≤ y) (hy8 : y ≤ 8) :
    Board.get_board_item b x y = some (Board.cellAt b x y) := by
  obtain ⟨s, hs, _, hswf⟩ := Board.slot_for b hwf x y hx hx8 hy hy8
  have hloc : ((x % 3) + (y % 3) * 3).toNat < s.slots.length := by rw [hswf]; omega
  have : Board.get_board_item b x y = some s.slots[((x % 3) + (y % 3) * 3).toNat] := by
    rw [Board.get_board_item_route b hwf x y hx hx8 hy hy8, hs]
    exact List.getElem?_eq_getElem hloc
  rw [this]
  unfold Board.cellAt
  rw [this]
  rfl

/-- Cells of a well-formed board with well-formed cells are empty or digits. -/
theorem Board.cellAt_wf (b : Board) (hwf : BoardWF b) (hc : CellsWF b) (x y : Int)
    (hx : 0 ≤ x) (hx8 : x ≤ 8) (hy : 0 ≤ y) (hy8 : y ≤ 8) :
    CellWF (Board.cellAt b x y) := by
  obtain ⟨s, hs, hmem, hswf⟩ := Board.slot_for b hwf x y hx hx8 hy hy8
  have hloc : ((x % 3) + (y % 3) * 3).toNat < s.slots.length := by rw [hswf]; omega
  have hget : Board.get_board_item b x y = some s.slots[((x % 3) + (y % 3) * 3).toNat] := by
    rw [Board.get_board_item_route b hwf x y hx hx8 hy hy8, hs]
    exact List.getElem?_eq_getElem hloc
  have hcell := Board.get_board_item_some b hwf x y hx hx8 hy hy8
  rw [hget] at hcell
  have : Board.cellAt b x y ∈ s.slots := by
    rw [← Option.some_inj.mp hcell]
    exact List.getElem_mem hloc
  exact hc s hmem _ this

/-- Explicit form of an in-range write to a well-formed board: the Section at
the routed meta slot gets its routed local slot overwritten, and the write
succeeds. -/
theorem Board.set_board_item_eq (b : Board) (s : Section) (hwf : BoardWF b) (v : Cell)
    (x y : Int) (hx : 0 ≤ x) (hx8 : x ≤ 8) (hy : 0 ≤ y) (hy8 : y ≤ 8)
    (hs : b.slots[((x / 3) + (y / 3) * 3).toNat]? = some s) :
    Board.set_board_item b v x y =
      (⟨b.slots.set ((x / 3) + (y / 3) * 3).toNat
          ⟨s.slots.set ((x % 3) + (y % 3) * 3).toNat v⟩⟩, true) := by
  have hswf : SecWF s := hwf.2 s (List.getElem?_mem hs)
  unfold Board.set_board_item Section.set_at
  rw [Board.get_at_meta_in_bounds b hwf _ _ (by constructor <;> omega), hs]
  dsimp only
  rw [pySet_pos _ _ _ (by omega) (by rw [hswf]; omega)]
  simp only [Option.map_some']
  rw [pySet_pos _ _ _ (by omega) (by rw [hwf.1]; omega)]

/-- An out-of-range write raises before touching anything: the board is
returned unchanged with the failure flag. -/
theorem Board.set_board_item_oob (b : Board) (v : Cell) (x y : Int)
    (h : ¬(0 ≤ x ∧ x ≤ 8 ∧ 0 ≤ y ∧ y ≤ 8)) :
    Board.set_board_item b v x y = (b, false) := by
  unfold Board.set_board_item
  unfold Board.get_at
  rw [if_neg (by omega)]

/-- Writes preserve board well-formedness. -/
theorem BoardWF_set (b : Board) (hwf : BoardWF b) (v : Cell) (x y : Int) :
    BoardWF (Board.set_board_item b v x y).1 := by
  by_cases h : 0 ≤ x ∧ x ≤ 8 ∧ 0 ≤ y ∧ y ≤ 8
  · obtain ⟨s, hs, hmem, hswf⟩ := Board.slot_for b hwf x y h.1 h.2.1 h.2.2.1 h.2.2.2
    rw [Board.set_board_item_eq b s hwf v x y h.1 h.2.1 h.2.2.1 h.2.2.2 hs]
    constructor
    · simpa using hwf.1
    · intro t ht
      rcases List.mem_or_eq_of_mem_set ht with hold | hnew
      · exact hwf.2 t hold
      · rw [hnew]
        unfold SecWF
        simpa using hswf
  · rw [Board.set_board_item_oob b v x y h]
    exact hwf

/-- Reading back the cell just written returns the written value. -/
theorem Board.get_set_same (b : Board) (hwf : BoardWF b) (v : Cell) (x y : Int)
    (hx : 0 ≤ x) (hx8 : x ≤ 8) (hy : 0 ≤ y) (hy8 : y ≤ 8) :
    Board.get_board_item (Board.set_board_item b v x y).1 x y = some v := by
  obtain ⟨s, hs, hmem, hswf⟩ := Board.slot_for b hwf x y hx hx8 hy hy8
  rw [Board.set_board_item_eq b s hwf v x y hx hx8 hy hy8 hs]
  have hwf2 : BoardWF (⟨b.slots.set ((x / 3) + (y / 3) * 3).toNat
      ⟨s.slots.set ((x % 3) + (y % 3) * 3).toNat v⟩⟩ : Board) := by
    have := BoardWF_set b hwf v x y
    rwa [Board.set_board_item_eq b s hwf v x y hx hx8 hy hy8 hs] at this
  rw [Board.get_board_item_route _ hwf2 x y hx hx8 hy hy8]
  have hm : ((x / 3) + (y / 3) * 3).toNat < b.slots.length := by rw [hwf.1]; omega
  have h1 : (b.slots.set ((x / 3) + (y / 3) * 3).toNat
      ⟨s.slots.set ((x % 3) + (y % 3) * 3).toNat v⟩)[((x / 3) + (y / 3) * 3).toNat]? =
      some ⟨s.slots.set ((x % 3) + (y % 3) * 3).toNat v⟩ := by
    simp [List.getElem?_set_self, hm]
  rw [h1]
  have hk : ((x % 3) + (y % 3) * 3).toNat < s.slots.length := by
    rw [hwf.2 s hmem]; omega
  simp [List.getElem?_set_self, hk]

/-- Writing one in-range cell leaves every other in-range cell unchanged. -/
theorem Board.get_set_frame (b : Board) (hwf : BoardWF b) (v : Cell) (x y x2 y2 : Int)
    (hx : 0 ≤ x) (hx8 : x ≤ 8) (hy : 0 ≤ y) (hy8 : y ≤ 8)
    (hx2 : 0 ≤ x2) (hx28 : x2 ≤ 8) (hy2 : 0 ≤ y2) (hy28 : y2 ≤ 8)
    (hne : ¬(x2 = x ∧ y2 = y)) :
    Board.get_board_item (Board.set_board_item b v x y).1 x2 y2 =
      Board.get_board_item b x2 y2 := by
  obtain ⟨s, hs, hmem, hswf⟩ := Board.slot_for b hwf x y hx hx8 hy hy8
  rw [Board.set_board_item_eq b s hwf v x y hx hx8 hy hy8 hs]
  have hwf2 : BoardWF (⟨b.slots.set ((x / 3) + (y / 3) * 3).toNat
      ⟨s.slots.set ((x % 3) + (y % 3) * 3).toNat v⟩⟩ : Board) := by
    have := BoardWF_set b hwf v x y
    rwa [Board.set_board_item_eq b s hwf v x y hx hx8 hy hy8 hs] at this
  rw [Board.get_board_item_route _ hwf2 x2 y2 hx2 hx28 hy2 hy28,
    Board.get_board_item_route b hwf x2 y2 hx2 hx28 hy2 hy28]
  by_cases hmeta : ((x2 / 3) + (y2 / 3) * 3).toNat = ((x / 3) + (y / 3) * 3).toNat
  · have hdiv : x2 / 3 = x / 3 ∧ y2 / 3 = y / 3 := by omega
    have hmod : ¬((x2 % 3) + (y2 % 3) * 3).toNat = ((x % 3) + (y % 3) * 3).toNat := by
      omega
    have hm : ((x / 3) + (y / 3) * 3).toNat < b.slots.length := by rw [hwf.1]; omega
    rw [hmeta]
    have h1 : (b.slots.set ((x / 3) + (y / 3) * 3).toNat
        ⟨s.slots.set ((x % 3) + (y % 3) * 3).toNat v⟩)[((x / 3) + (y / 3) * 3).toNat]? =
        some ⟨s.slots.set ((x % 3) + (y % 3) * 3).toNat v⟩ := by
      simp [List.getElem?_set_self, hm]
    rw [h1, hs]
    exact List.getElem?_set_ne (fun h => hmod h.symm)
  · rw [List.getElem?_set_ne (fun h => hmeta h.symm)]

/-! ### The duplicate scan, decoupled from the cell getters -/

/-- The validity scan over an already-fetched list of cells. -/
def scanCells : List Cell → List Nat → Option Bool
  | [], _ => some true
  | none :: rest, taken => scanCells rest taken
  | some n :: rest, taken =>
    match pyGet taken (n - 1) with
    | none => none
    | some t =>
      if t ≠ 0 then some false
      else
        match pySet taken (n - 1) 1 with
        | none => none
        | some taken2 => scanCells rest taken2

/-- The digits present in a list of cells, in order, empty cells dropped. -/
def digitsOf (cells : List Cell) : List Int := cells.filterMap id

theorem digitsOf_nil : digitsOf [] = [] := rfl

theorem digitsOf_cons_none (cells : List Cell) :
    digitsOf (none :: cells) = digitsOf cells := rfl

theorem digitsOf_cons_some (n : Int) (cells : List Cell) :
    digitsOf (some n :: cells) = n :: digitsOf cells := rfl

theorem digitsOf_mem (cells : List Cell) (d : Int) (h : d ∈ digitsOf cells) :
    some d ∈ cells := by
  unfold digitsOf at h
  rcases List.mem_filterMap.mp h with ⟨c, hc, hid⟩
  rw [show id c = c from rfl] at hid
  rwa [hid] at hc

theorem digitsOf_wf (cells : List Cell) (hwf : ∀ c ∈ cells, CellWF c)
    (d : Int) (h : d ∈ digitsOf cells) : 1 ≤ d ∧ d ≤ 9 :=
  hwf (some d) (digitsOf_mem cells d h)


theorem genScan_cons (g : Int → Int → Option Cell) (x y : Int)
    (rest : List (Int × Int)) (taken : List Nat) :
    genScan g ((x, y) :: rest) taken =
      match g x y with
      | none => none
      | some none => genScan g rest taken
      | some (some n) =>
        match pyGet taken (n - 1) with
        | none => none
        | some t =>
          if t ≠ 0 then some false
          else
            match pySet taken (n - 1) 1 with
            | none => none
            | some taken2 => genScan g rest taken2 := rfl

theorem scanCells_cons_none (rest : List Cell) (taken : List Nat) :
    scanCells (none :: rest) taken = scanCells rest taken := rfl

theorem scanCells_cons_some (n : Int) (rest : List Cell) (taken : List Nat) :
    scanCells (some n :: rest) taken =
      match pyGet taken (n - 1) with
      | none => none
      | some t =>
        if t ≠ 0 then some false
        else
          match pySet taken (n - 1) 1 with
          | none => none
          | some taken2 => scanCells rest taken2 := rfl

/-- When every listed coordinate reads back successfully, the interleaved
scan coincides with the scan of the fetched cells. -/
theorem genScan_eq_scanCells (g : Int → Int → Option Cell) (f : Int × Int → Cell)
    (pts : List (Int × Int)) (taken : List Nat)
    (h : ∀ p ∈ pts, g p.1 p.2 = some (f p)) :
    genScan g pts taken = scanCells (pts.map f) taken := by
  induction pts generalizing taken with
  | nil => rfl
  | cons p rest ih =>
    obtain ⟨x, y⟩ := p
    have hp : g x y = some (f (x, y)) := h (x, y) (by simp)
    have hrest : ∀ q ∈ rest, g q.1 q.2 = some (f q) := fun q hq => h q (by simp [hq])
    rw [List.map_cons, genScan_cons, hp]
    cases hfp : f (x, y) with
    | none =>
      dsimp only
      rw [scanCells_cons_none]
      exact ih _ hrest
    | some n =>
      dsimp only
      rw [scanCells_cons_some]
      cases pyGet taken (n - 1) with
      | none => rfl
      | some t =>
        dsimp only
        by_cases ht : t ≠ 0
        · rw [if_pos ht, if_pos ht]
        · rw [if_neg ht, if_neg ht]
          cases pySet taken (n - 1) 1 with
          | none => rfl
          | some taken2 =>
            dsimp only
            exact ih _ hrest

/-- Characterization of the scan: over digit cells with a 9-slot taken array
it never raises, and it returns True exactly when the digits are pairwise
distinct and none of them is already marked taken. -/
theorem scanCells_eq (cells : List Cell) (taken : List Nat)
    (hwf : ∀ c ∈ cells, CellWF c) (hlen : taken.length = 9) :
    scanCells cells taken =
      some (decide ((digitsOf cells).Nodup ∧
        ∀ d ∈ digitsOf cells, taken[(d - 1).toNat]? = some 0)) := by
  induction cells generalizing taken with
  | nil =>
    simp [scanCells, digitsOf_nil]
  | cons c rest ih =>
    have hwfrest : ∀ c2 ∈ rest, CellWF c2 := fun c2 hc2 => hwf c2 (by simp [hc2])
    cases c with
    | none =>
      rw [scanCells_cons_none, digitsOf_cons_none]
      exact ih taken hwfrest hlen
    | some n =>
      have hn : 1 ≤ n ∧ n ≤ 9 := hwf (some n) (by simp)
      have hidx0 : (0 : Int) ≤ n - 1 := by omega
      have hidxlt : n - 1 < (taken.length : Int) := by rw [hlen]; omega
      have hidxnat : (n - 1).toNat < taken.length := by omega
      rw [scanCells_cons_some, pyGet_pos _ _ hidx0 hidxlt,
        List.getElem?_eq_getElem hidxnat]
      dsimp only
      rw [digitsOf_cons_some]
      by_cases ht : taken[(n - 1).toNat] ≠ 0
      · rw [if_pos ht]
        have hfail : ¬((n :: digitsOf rest).Nodup ∧
            ∀ d ∈ n :: digitsOf rest, taken[(d - 1).toNat]? = some 0) := by
          rintro ⟨-, hall⟩
          have := hall n (by simp)
          rw [List.getElem?_eq_getElem hidxnat] at this
          exact ht (Option.some_inj.mp this)
        rw [decide_eq_false hfail]
      · rw [if_neg ht]
        push_neg at ht
        rw [pySet_pos _ _ _ hidx0 hidxlt]
        dsimp only
        rw [ih (taken.set (n - 1).toNat 1)
          hwfrest (by rw [List.length_set]; exact hlen)]
        congr 1
        rw [decide_eq_decide]
        have hbound : ∀ d ∈ digitsOf rest, 1 ≤ d ∧ d ≤ 9 := digitsOf_wf rest hwfrest
        have hset_self : (taken.set (n - 1).toNat 1)[(n - 1).toNat]? = some 1 :=
          List.getElem?_set_self hidxnat
        have hset_ne : ∀ d : Int, 1 ≤ d → d ≤ 9 → d ≠ n →
            (taken.set (n - 1).toNat 1)[(d - 1).toNat]? = taken[(d - 1).toNat]? := by
          intro d h1 h9 hne
          exact List.getElem?_set_ne (by omega)
        constructor
        · rintro ⟨hnd, hall⟩
          have hnmem : n ∉ digitsOf rest := by
            intro hmem
            have := hall n hmem
            rw [hset_self] at this
            exact absurd (Option.some_inj.mp this) (by omega)
          refine ⟨List.nodup_cons.mpr ⟨hnmem, hnd⟩, ?_⟩
          intro d hd
          rcases List.mem_cons.mp hd with rfl | hd2
          · rw [List.getElem?_eq_getElem hidxnat, ht]
          · have hb := hbound d hd2
            have hne : d ≠ n := fun h => hnmem (h ▸ hd2)
            rw [← hset_ne d hb.1 hb.2 hne]
            exact hall d hd2
        · rintro ⟨hnd, hall⟩
          have hnmem : n ∉ digitsOf rest := (List.nodup_cons.mp hnd).1
          refine ⟨(List.nodup_cons.mp hnd).2, ?_⟩
          intro d hd
          have hb := hbound d hd
          have hne : d ≠ n := fun h => hnmem (h ▸ hd)
          rw [hset_ne d hb.1 hb.2 hne]
          exact hall d (by simp [hd])

theorem mem_idx9 (x : Int) (h : x ∈ idx9) : 0 ≤ x ∧ x ≤ 8 := by
  simp only [idx9, List.mem_cons, List.not_mem_nil, or_false] at h
  omega

theorem mem_idx3 (x : Int) (h : x ∈ idx3) : 0 ≤ x ∧ x ≤ 2 := by
  simp only [idx3, List.mem_cons, List.not_mem_nil, or_false] at h
  omega

theorem mem_boxPts (p : Int × Int) (h : p ∈ boxPts) :
    0 ≤ p.1 ∧ p.1 ≤ 2 ∧ 0 ≤ p.2 ∧ p.2 ≤ 2 := by
  rcases List.mem_flatMap.mp h with ⟨x, hx, hp⟩
  rcases List.mem_map.mp hp with ⟨y, hy, rfl⟩
  have h1 := mem_idx3 x hx
  have h2 := mem_idx3 y hy
  exact ⟨h1.1, h1.2, h2.1, h2.2⟩

theorem replicate9_fresh (d : Int) (h1 : 1 ≤ d) (h9 : d ≤ 9) :
    (List.replicate 9 (0 : Nat))[(d - 1).toNat]? = some 0 := by
  rw [List.getElem?_replicate, if_pos (by omega)]

/-- The horizontal line check of a well-formed board returns exactly whether
the digits of the row are pairwise distinct. -/
theorem is_line_valid_horizontal_eq (b : Board) (hwf : BoardWF b) (hc : CellsWF b)
    (y : Int) (hy : 0 ≤ y) (hy8 : y ≤ 8) :
    Board.is_line_valid_horizontal b y = some (decide (Board.rowDigits b y).Nodup) := by
  have hget : ∀ p ∈ idx9.map (fun x => (x, y)),
      Board.get_board_item b p.1 p.2 = some ((fun p : Int × Int => Board.cellAt b p.1 p.2) p) := by
    intro p hp
    rcases List.mem_map.mp hp with ⟨x, hx, rfl⟩
    have hxb := mem_idx9 x hx
    exact Board.get_board_item_some b hwf x y hxb.1 hxb.2 hy hy8
  have hcwf : ∀ c ∈ idx9.map (fun x => Board.cellAt b x y), CellWF c := by
    intro c hcm
    rcases List.mem_map.mp hcm with ⟨x, hx, rfl⟩
    have hxb := mem_idx9 x hx
    exact Board.cellAt_wf b hwf hc x y hxb.1 hxb.2 hy hy8
  have hM : (idx9.map (fun x => (x, y))).map (fun p : Int × Int => Board.cellAt b p.1 p.2) =
      idx9.map (fun x => Board.cellAt b x y) := by
    rw [List.map_map]
    rfl
  unfold Board.is_line_valid_horizontal
  rw [genScan_eq_scanCells _ (fun p : Int × Int => Board.cellAt b p.1 p.2) _ _ hget, hM,
    scanCells_eq _ _ hcwf (by simp)]
  have hrd : digitsOf (idx9.map (fun x => Board.cellAt b x y)) = Board.rowDigits b y := rfl
  rw [hrd]
  congr 1
  rw [decide_eq_decide]
  constructor
  · exact fun h => h.1
  · intro h
    refine ⟨h, ?_⟩
    intro d hd
    have hb : 1 ≤ d ∧ d ≤ 9 := digitsOf_wf _ hcwf d (by rw [hrd]; exact hd)
    exact replicate9_fresh d hb.1 hb.2

/-- The vertical line check of a well-formed board returns exactly whether
the digits of the column are pairwise distinct. -/
theorem is_line_valid_vertical_eq (b : Board) (hwf : BoardWF b) (hc : CellsWF b)
    (x : Int) (hx : 0 ≤ x) (hx8 : x ≤ 8) :
    Board.is_line_valid_vertical b x = some (decide (Board.colDigits b x).Nodup) := by
  have hget : ∀ p ∈ idx9.map (fun y => (x, y)),
      Board.get_board_item b p.1 p.2 = some ((fun p : Int × Int => Board.cellAt b p.1 p.2) p) := by
    intro p hp
    rcases List.mem_map.mp hp with ⟨y, hy, rfl⟩
    have hyb := mem_idx9 y hy
    exact Board.get_board_item_some b hwf x y hx hx8 hyb.1 hyb.2
  have hcwf : ∀ c ∈ idx9.map (fun y => Board.cellAt b x y), CellWF c := by
    intro c hcm
    rcases List.mem_map.mp hcm with ⟨y, hy, rfl⟩
    have hyb := mem_idx9 y hy
    exact Board.cellAt_wf b hwf hc x y hx hx8 hyb.1 hyb.2
  have hM : (idx9.map (fun y => (x, y))).map (fun p : Int × Int => Board.cellAt b p.1 p.2) =
      idx9.map (fun y => Board.cellAt b x y) := by
    rw [List.map_map]
    rfl
  unfold Board.is_line_valid_vertical
  rw [genScan_eq_scanCells _ (fun p : Int × Int => Board.cellAt b p.1 p.2) _ _ hget, hM,
    scanCells_eq _ _ hcwf (by simp)]
  have hrd : digitsOf (idx9.map (fun y => Board.cellAt b x y)) = Board.colDigits b x := rfl
  rw [hrd]
  congr 1
  rw [decide_eq_decide]
  constructor
  · exact fun h => h.1
  · intro h
    refine ⟨h, ?_⟩
    intro d hd
    have hb : 1 ≤ d ∧ d ≤ 9 := digitsOf_wf _ hcwf d (by rw [hrd]; exact hd)
    exact replicate9_fresh d hb.1 hb.2

/-- Local slot (lx, ly) of the Section at meta slot (sx, sy) is global cell
(sx * 3 + lx, sy * 3 + ly). -/
theorem box_cell (b : Board) (hwf : BoardWF b) (s : Section) (sx sy lx ly : Int)
    (hsx : 0 ≤ sx) (hsx2 : sx ≤ 2) (hsy : 0 ≤ sy) (hsy2 : sy ≤ 2)
    (hlx : 0 ≤ lx) (hlx2 : lx ≤ 2) (hly : 0 ≤ ly) (hly2 : ly ≤ 2)
    (hs : b.slots[(sx + sy * 3).toNat]? = some s) :
    Section.get_at s lx ly = some (Board.cellAt b (sx * 3 + lx) (sy * 3 + ly)) := by
  have hswf : SecWF s := hwf.2 s (List.getElem?_mem hs)
  have hX : (0 : Int) ≤ sx * 3 + lx := by omega
  have hX8 : sx * 3 + lx ≤ 8 := by omega
  have hY : (0 : Int) ≤ sy * 3 + ly := by omega
  have hY8 : sy * 3 + ly ≤ 8 := by omega
  have hroute := Board.get_board_item_route b hwf (sx * 3 + lx) (sy * 3 + ly) hX hX8 hY hY8
  have hdiv : (sx * 3 + lx) / 3 + ((sy * 3 + ly) / 3) * 3 = sx + sy * 3 := by omega
  have hmod : (sx * 3 + lx) % 3 + ((sy * 3 + ly) % 3) * 3 = lx + ly * 3 := by omega
  rw [hdiv, hmod, hs] at hroute
  dsimp only at hroute
  have hsome := Board.get_board_item_some b hwf (sx * 3 + lx) (sy * 3 + ly) hX hX8 hY hY8
  rw [Section.get_at_in_bounds s hswf lx ly ⟨hlx, hlx2, hly, hly2⟩, ← hroute, hsome]

/-- The box check of a well-formed board returns exactly whether the digits
of the box are pairwise distinct. -/
theorem is_section_valid_eq (b : Board) (hwf : BoardWF b) (hc : CellsWF b)
    (sx sy : Int) (hsx : 0 ≤ sx) (hsx2 : sx ≤ 2) (hsy : 0 ≤ sy) (hsy2 : sy ≤ 2) :
    Board.is_section_valid b sx sy = some (decide (Board.boxDigits b sx sy).Nodup) := by
  have hidx : (sx + sy * 3).toNat < b.slots.length := by rw [hwf.1]; omega
  have hs : b.slots[(sx + sy * 3).toNat]? = some b.slots[(sx + sy * 3).toNat] :=
    List.getElem?_eq_getElem hidx
  have hget : ∀ p ∈ boxPts, Section.get_at b.slots[(sx + sy * 3).toNat] p.1 p.2 =
      some ((fun p : Int × Int => Board.cellAt b (sx * 3 + p.1) (sy * 3 + p.2)) p) := by
    intro p hp
    have hb := mem_boxPts p hp
    exact box_cell b hwf _ sx sy p.1 p.2 hsx hsx2 hsy hsy2
      hb.1 hb.2.1 hb.2.2.1 hb.2.2.2 hs
  have hcwf : ∀ c ∈ boxPts.map (fun p : Int × Int =>
      Board.cellAt b (sx * 3 + p.1) (sy * 3 + p.2)), CellWF c := by
    intro c hcm
    rcases List.mem_map.mp hcm with ⟨p, hp, rfl⟩
    have hb := mem_boxPts p hp
    exact Board.cellAt_wf b hwf hc _ _ (by omega) (by omega) (by omega) (by omega)
  unfold Board.is_section_valid
  rw [Board.get_at_meta_in_bounds b hwf sx sy ⟨hsx, hsx2, hsy, hsy2⟩, hs]
  dsimp only
  rw [genScan_eq_scanCells _ (fun p : Int × Int =>
      Board.cellAt b (sx * 3 + p.1) (sy * 3 + p.2)) _ _ hget,
    scanCells_eq _ _ hcwf (by simp)]
  have hrd : digitsOf (boxPts.map (fun p : Int × Int =>
      Board.cellAt b (sx * 3 + p.1) (sy * 3 + p.2))) = Board.boxDigits b sx sy := rfl
  rw [hrd]
  congr 1
  rw [decide_eq_decide]
  constructor
  · exact fun h => h.1
  · intro h
    refine ⟨h, ?_⟩
    intro d hd
    have hb : 1 ≤ d ∧ d ≤ 9 := digitsOf_wf _ hcwf d (by rw [hrd]; exact hd)
    exact replicate9_fresh d hb.1 hb.2

theorem idx9_mem (x : Int) (h1 : 0 ≤ x) (h2 : x ≤ 8) : x ∈ idx9 := by
  simp only [idx9, List.mem_cons, List.not_mem_nil, or_false]
  omega

theorem idx3_mem (x : Int) (h1 : 0 ≤ x) (h2 : x ≤ 2) : x ∈ idx3 := by
  simp only [idx3, List.mem_cons, List.not_mem_nil, or_false]
  omega

/-- C1: for every y in [0,8], is_line_valid_horizontal returns True exactly
when no digit occurs in two distinct non-empty cells of row y (that is, the
digit list of the row has no duplicate), and it never raises; likewise
is_line_valid_vertical for x in [0,8] and is_section_valid for meta
coordinates in [0,2]; and a row, column or box whose nine cells are all
empty is reported valid. -/
theorem claim_C1_unit_validity (b : Board) (hwf : BoardWF b) (hc : CellsWF b) :
    (∀ y : Int, 0 ≤ y → y ≤ 8 →
      ((Board.is_line_valid_horizontal b y = some true ↔ (Board.rowDigits b y).Nodup) ∧
        Board.is_line_valid_horizontal b y ≠ none)) ∧
    (∀ x : Int, 0 ≤ x → x ≤ 8 →
      ((Board.is_line_valid_vertical b x = some true ↔ (Board.colDigits b x).Nodup) ∧
        Board.is_line_valid_vertical b x ≠ none)) ∧
    (∀ sx sy : Int, 0 ≤ sx → sx ≤ 2 → 0 ≤ sy → sy ≤ 2 →
      ((Board.is_section_valid b sx sy = some true ↔ (Board.boxDigits b sx sy).Nodup) ∧
        Board.is_section_valid b sx sy ≠ none)) ∧
    (∀ y : Int, 0 ≤ y → y ≤ 8 →
      (∀ x : Int, 0 ≤ x → x ≤ 8 → Board.cellAt b x y = none) →
        Board.is_line_valid_horizontal b y = some true) ∧
    (∀ x : Int, 0 ≤ x → x ≤ 8 →
      (∀ y : Int, 0 ≤ y → y ≤ 8 → Board.cellAt b x y = none) →
        Board.is_line_valid_vertical b x = some true) ∧
    (∀ sx sy : Int, 0 ≤ sx → sx ≤ 2 → 0 ≤ sy → sy ≤ 2 →
      (∀ lx ly : Int, 0 ≤ lx → lx ≤ 2 → 0 ≤ ly → ly ≤ 2 →
        Board.cellAt b (sx * 3 + lx) (sy * 3 + ly) = none) →
        Board.is_section_valid b sx sy = some true) := by
  refine ⟨?_, ?_, ?_, ?_, ?_, ?_⟩
  · intro y hy hy8
    rw [is_line_valid_horizontal_eq b hwf hc y hy hy8]
    refine ⟨⟨fun h => of_decide_eq_true (Option.some_inj.mp h),
      fun h => by rw [decide_eq_true h]⟩, by simp⟩
  · intro x hx hx8
    rw [is_line_valid_vertical_eq b hwf hc x hx hx8]
    refine ⟨⟨fun h => of_decide_eq_true (Option.some_inj.mp h),
      fun h => by rw [decide_eq_true h]⟩, by simp⟩
  · intro sx sy hsx hsx2 hsy hsy2
    rw [is_section_valid_eq b hwf hc sx sy hsx hsx2 hsy hsy2]
    refine ⟨⟨fun h => of_decide_eq_true (Option.some_inj.mp h),
      fun h => by rw [decide_eq_true h]⟩, by simp⟩
  · intro y hy hy8 hall
    rw [is_line_valid_horizontal_eq b hwf hc y hy hy8]
    have hnil : Board.rowDigits b y = [] := by
      refine List.filterMap_eq_nil_iff.mpr ?_
      intro a ha
      rcases List.mem_map.mp ha with ⟨x, hx, rfl⟩
      have hxb := mem_idx9 x hx
      rw [hall x hxb.1 hxb.2]
      rfl
    rw [hnil]
    simp
  · intro x hx hx8 hall
    rw [is_line_valid_vertical_eq b hwf hc x hx hx8]
    have hnil : Board.colDigits b x = [] := by
      refine List.filterMap_eq_nil_iff.mpr ?_
      intro a ha
      rcases List.mem_map.mp ha with ⟨y, hy, rfl⟩
      have hyb := mem_idx9 y hy
      rw [hall y hyb.1 hyb.2]
      rfl
    rw [hnil]
    simp
  · intro sx sy hsx hsx2 hsy hsy2 hall
    rw [is_section_valid_eq b hwf hc sx sy hsx hsx2 hsy hsy2]
    have hnil : Board.boxDigits b sx sy = [] := by
      refine List.filterMap_eq_nil_iff.mpr ?_
      intro a ha
      rcases List.mem_map.mp ha with ⟨p, hp, rfl⟩
      have hb := mem_boxPts p hp
      rw [hall p.1 p.2 hb.1 hb.2.1 hb.2.2.1 hb.2.2.2]
      rfl
    rw [hnil]
    simp

/-- C1 witness: the hypotheses are satisfied by the freshly constructed
all-empty board, where the row-0 check indeed reports validity. -/
theorem claim_C1_unit_validity_witness :
    BoardWF Board.init ∧ CellsWF Board.init ∧
      (Board.is_line_valid_horizontal Board.init 0 = some true ↔
        (Board.rowDigits Board.init 0).Nodup) :=
  ⟨by decide, by decide,
    ((claim_C1_unit_validity Board.init (by decide) (by decide)).1 0
      (by decide) (by decide)).1⟩

theorem seqAnd_cons (f : Unit → Option Bool) (rest : List (Unit → Option Bool)) :
    seqAnd (f :: rest) =
      match f () with
      | none => none
      | some false => some false
      | some true => seqAnd rest := rfl

/-- The sequential early-return conjunction of total checks returns exactly
whether every check returns True. -/
theorem seqAnd_eq (fs : List (Unit → Option Bool))
    (h : ∀ f ∈ fs, f () ≠ none) :
    seqAnd fs = some (decide (∀ f ∈ fs, f () = some true)) := by
  induction fs with
  | nil => simp [seqAnd]
  | cons f rest ih =>
    have hf : f () ≠ none := h f (by simp)
    have hrest : ∀ g ∈ rest, g () ≠ none := fun g hg => h g (by simp [hg])
    rw [seqAnd_cons]
    cases hfv : f () with
    | none => exact absurd hfv hf
    | some bv =>
      cases bv with
      | false =>
        dsimp only
        have hfail : ¬(∀ g ∈ f :: rest, g () = some true) := by
          intro hall
          have := hall f (by simp)
          rw [hfv] at this
          exact absurd (Option.some_inj.mp this) (by simp)
        rw [decide_eq_false hfail]
      | true =>
        dsimp only
        rw [ih hrest]
        congr 1
        rw [decide_eq_decide]
        constructor
        · intro hall g hg
          rcases List.mem_cons.mp hg with rfl | hg2
          · exact hfv
          · exact hall g hg2
        · intro hall g hg
          exact hall g (by simp [hg])

/-- The full validity check of a well-formed board: True exactly when all
nine columns, all nine rows and all nine boxes pass their checks, and it
never raises. -/
theorem is_valid_iff (b : Board) (hwf : BoardWF b) (hc : CellsWF b) :
    (Board.is_valid b = some true ↔
      ((∀ x : Int, 0 ≤ x → x ≤ 8 → Board.is_line_valid_vertical b x = some true) ∧
        (∀ y : Int, 0 ≤ y → y ≤ 8 → Board.is_line_valid_horizontal b y = some true) ∧
        (∀ sx sy : Int, 0 ≤ sx → sx ≤ 2 → 0 ≤ sy → sy ≤ 2 →
          Board.is_section_valid b sx sy = some true))) ∧
      Board.is_valid b ≠ none := by
  have hdecomp : ∀ f ∈ (idx9.map (fun x => (fun _ : Unit => Board.is_line_valid_vertical b x)))
      ++ (idx9.map (fun y => (fun _ : Unit => Board.is_line_valid_horizontal b y)))
      ++ (idx3.flatMap (fun x => idx3.map (fun y =>
            (fun _ : Unit => Board.is_section_valid b x y)))),
      (∃ x : Int, 0 ≤ x ∧ x ≤ 8 ∧ f = (fun _ : Unit => Board.is_line_valid_vertical b x)) ∨
      (∃ y : Int, 0 ≤ y ∧ y ≤ 8 ∧ f = (fun _ : Unit => Board.is_line_valid_horizontal b y)) ∨
      (∃ sx sy : Int, 0 ≤ sx ∧ sx ≤ 2 ∧ 0 ≤ sy ∧ sy ≤ 2 ∧
        f = (fun _ : Unit => Board.is_section_valid b sx sy)) := by
    intro f hf
    rcases List.mem_append.mp hf with hf2 | hsec
    · rcases List.mem_append.mp hf2 with hv | hh
      · rcases List.mem_map.mp hv with ⟨x, hx, rfl⟩
        have hb := mem_idx9 x hx
        exact Or.inl ⟨x, hb.1, hb.2, rfl⟩
      · rcases List.mem_map.mp hh with ⟨y, hy, rfl⟩
        have hb := mem_idx9 y hy
        exact Or.inr (Or.inl ⟨y, hb.1, hb.2, rfl⟩)
    · rcases List.mem_flatMap.mp hsec with ⟨sx, hsx, hin⟩
      rcases List.mem_map.mp hin with ⟨sy, hsy, rfl⟩
      have hb1 := mem_idx3 sx hsx
      have hb2 := mem_idx3 sy hsy
      exact Or.inr (Or.inr ⟨sx, sy, hb1.1, hb1.2, hb2.1, hb2.2, rfl⟩)
  have htotal : ∀ f ∈ (idx9.map (fun x => (fun _ : Unit => Board.is_line_valid_vertical b x)))
      ++ (idx9.map (fun y => (fun _ : Unit => Board.is_line_valid_horizontal b y)))
      ++ (idx3.flatMap (fun x => idx3.map (fun y =>
            (fun _ : Unit => Board.is_section_valid b x y)))), f () ≠ none := by
    intro f hf
    rcases hdecomp f hf with ⟨x, h1, h2, rfl⟩ | ⟨y, h1, h2, rfl⟩ | ⟨sx, sy, h1, h2, h3, h4, rfl⟩
    · rw [is_line_valid_vertical_eq b hwf hc x h1 h2]
      simp
    · rw [is_line_valid_horizontal_eq b hwf hc y h1 h2]
      simp
    · rw [is_section_valid_eq b hwf hc sx sy h1 h2 h3 h4]
      simp
  have hval : Board.is_valid b = some (decide (∀ f ∈
      (idx9.map (fun x => (fun _ : Unit => Board.is_line_valid_vertical b x)))
      ++ (idx9.map (fun y => (fun _ : Unit => Board.is_line_valid_horizontal b y)))
      ++ (idx3.flatMap (fun x => idx3.map (fun y =>
            (fun _ : Unit => Board.is_section_valid b x y)))), f () = some true)) := by
    unfold Board.is_valid
    exact seqAnd_eq _ htotal
  constructor
  · rw [hval]
    constructor
    · intro h
      have hall := of_decide_eq_true (Option.some_inj.mp h)
      refine ⟨?_, ?_, ?_⟩
      · intro x h1 h2
        exact hall (fun _ : Unit => Board.is_line_valid_vertical b x)
          (by
            refine List.mem_append.mpr (Or.inl ?_)
            refine List.mem_append.mpr (Or.inl ?_)
            exact List.mem_map.mpr ⟨x, idx9_mem x h1 h2, rfl⟩)
      · intro y h1 h2
        exact hall (fun _ : Unit => Board.is_line_valid_horizontal b y)
          (by
            refine List.mem_append.mpr (Or.inl ?_)
            refine List.mem_append.mpr (Or.inr ?_)
            exact List.mem_map.mpr ⟨y, idx9_mem y h1 h2, rfl⟩)
      · intro sx sy h1 h2 h3 h4
        exact hall (fun _ : Unit => Board.is_section_valid b sx sy)
          (by
            refine List.mem_append.mpr (Or.inr ?_)
            refine List.mem_flatMap.mpr ⟨sx, idx3_mem sx h1 h2, ?_⟩
            exact List.mem_map.mpr ⟨sy, idx3_mem sy h3 h4, rfl⟩)
    · intro h
      have hall : ∀ f ∈ (idx9.map (fun x => (fun _ : Unit => Board.is_line_valid_vertical b x)))
          ++ (idx9.map (fun y => (fun _ : Unit => Board.is_line_valid_horizontal b y)))
          ++ (idx3.flatMap (fun x => idx3.map (fun y =>
                (fun _ : Unit => Board.is_section_valid b x y)))), f () = some true := by
        intro f hf
        rcases hdecomp f hf with ⟨x, h1, h2, rfl⟩ | ⟨y, h1, h2, rfl⟩ |
          ⟨sx, sy, h1, h2, h3, h4, rfl⟩
        · exact h.1 x h1 h2
        · exact h.2.1 y h1 h2
        · exact h.2.2 sx sy h1 h2 h3 h4
      rw [decide_eq_true hall]
  · rw [hval]
    simp

/-- C2: is_valid returns True exactly when all nine rows, all nine columns
and all nine boxes are individually valid, and it never raises; so any
single failing unit makes it return False. -/
theorem claim_C2_is_valid_conj (b : Board) (hwf : BoardWF b) (hc : CellsWF b) :
    (Board.is_valid b = some true ↔
      ((∀ y : Int, 0 ≤ y → y ≤ 8 → Board.is_line_valid_horizontal b y = some true) ∧
        (∀ x : Int, 0 ≤ x → x ≤ 8 → Board.is_line_valid_vertical b x = some true) ∧
        (∀ sx sy : Int, 0 ≤ sx → sx ≤ 2 → 0 ≤ sy → sy ≤ 2 →
          Board.is_section_valid b sx sy = some true))) ∧
      Board.is_valid b ≠ none := by
  obtain ⟨hiff, hne⟩ := is_valid_iff b hwf hc
  refine ⟨?_, hne⟩
  rw [hiff]
  constructor
  · exact fun h => ⟨h.2.1, h.1, h.2.2⟩
  · exact fun h => ⟨h.2.1, h.1, h.2.2⟩

/-- C2 witness: on the all-empty board the equivalence and totality hold. -/
theorem claim_C2_is_valid_conj_witness :
    BoardWF Board.init ∧ CellsWF Board.init ∧ Board.is_valid Board.init ≠ none :=
  ⟨by decide, by decide, (claim_C2_is_valid_conj Board.init (by decide) (by decide)).2⟩

theorem mem_allPts (p : Int × Int) (h : p ∈ allPts) :
    0 ≤ p.1 ∧ p.1 ≤ 8 ∧ 0 ≤ p.2 ∧ p.2 ≤ 8 := by
  rcases List.mem_flatMap.mp h with ⟨x, hx, hp⟩
  rcases List.mem_map.mp hp with ⟨y, hy, rfl⟩
  have h1 := mem_idx9 x hx
  have h2 := mem_idx9 y hy
  exact ⟨h1.1, h1.2, h2.1, h2.2⟩

theorem allPts_mem (x y : Int) (h1 : 0 ≤ x) (h2 : x ≤ 8) (h3 : 0 ≤ y) (h4 : y ≤ 8) :
    (x, y) ∈ allPts :=
  List.mem_flatMap.mpr ⟨x, idx9_mem x h1 h2,
    List.mem_map.mpr ⟨y, idx9_mem y h3 h4, rfl⟩⟩

/-- The blank scan of is_solved: an empty cell among the listed coordinates
gives False; with no empty cell the scan falls through to is_valid. -/
theorem solvedScan_eq (b : Board) (hwf : BoardWF b) (pts : List (Int × Int))
    (hpts : ∀ p ∈ pts, 0 ≤ p.1 ∧ p.1 ≤ 8 ∧ 0 ≤ p.2 ∧ p.2 ≤ 8) :
    ((∃ p ∈ pts, Board.cellAt b p.1 p.2 = none) → solvedScan b pts = some false) ∧
    ((∀ p ∈ pts, Board.cellAt b p.1 p.2 ≠ none) → solvedScan b pts = Board.is_valid b) := by
  induction pts with
  | nil =>
    constructor
    · rintro ⟨p, hp, -⟩
      cases hp
    · intro _
      rfl
  | cons p rest ih =>
    obtain ⟨x, y⟩ := p
    have hb := hpts (x, y) (by simp)
    have hrest : ∀ q ∈ rest, 0 ≤ q.1 ∧ q.1 ≤ 8 ∧ 0 ≤ q.2 ∧ q.2 ≤ 8 :=
      fun q hq => hpts q (by simp [hq])
    have hget := Board.get_board_item_some b hwf x y hb.1 hb.2.1 hb.2.2.1 hb.2.2.2
    have hstep : solvedScan b ((x, y) :: rest) =
        (match Board.cellAt b x y with
         | none => some false
         | some _ => solvedScan b rest) := by
      rw [show solvedScan b ((x, y) :: rest) =
          (match Board.get_board_item b x y with
           | none => none
           | some none => some false
           | some (some _) => solvedScan b rest) from rfl, hget]
      cases Board.cellAt b x y <;> rfl
    cases hcell : Board.cellAt b x y with
    | none =>
      rw [hcell] at hstep
      dsimp only at hstep
      constructor
      · intro _
        exact hstep
      · intro hall
        exact absurd hcell (hall (x, y) (by simp))
    | some v =>
      rw [hcell] at hstep
      dsimp only at hstep
      constructor
      · rintro ⟨q, hq, hqe⟩
        rcases List.mem_cons.mp hq with rfl | hq2
        · exact absurd hqe (by rw [hcell]; simp)
        · rw [hstep]
          exact (ih hrest).1 ⟨q, hq2, hqe⟩
      · intro hall
        rw [hstep]
        exact (ih hrest).2 (fun q hq => hall q (by simp [hq]))

/-- The completeness check of a well-formed board: True exactly when every
cell is occupied and the board is valid, and it never raises. -/
theorem is_solved_iff (b : Board) (hwf : BoardWF b) (hc : CellsWF b) :
    (Board.is_solved b = some true ↔
      ((∀ x y : Int, 0 ≤ x → x ≤ 8 → 0 ≤ y → y ≤ 8 → Board.cellAt b x y ≠ none) ∧
        Board.is_valid b = some true)) ∧
      Board.is_solved b ≠ none := by
  have hscan := solvedScan_eq b hwf allPts mem_allPts
  by_cases hemp : ∀ x y : Int, 0 ≤ x → x ≤ 8 → 0 ≤ y → y ≤ 8 →
      Board.cellAt b x y ≠ none
  · have hall : ∀ p ∈ allPts, Board.cellAt b p.1 p.2 ≠ none := by
      intro p hp
      have hb := mem_allPts p hp
      exact hemp p.1 p.2 hb.1 hb.2.1 hb.2.2.1 hb.2.2.2
    have hsolved : Board.is_solved b = Board.is_valid b := hscan.2 hall
    rw [Board.is_solved] at hsolved
    constructor
    · rw [Board.is_solved, hsolved]
      constructor
      · exact fun h => ⟨hemp, h⟩
      · exact fun h => h.2
    · rw [Board.is_solved, hsolved]
      exact (is_valid_iff b hwf hc).2
  · push_neg at hemp
    obtain ⟨x, y, h1, h2, h3, h4, hxy⟩ := hemp
    have hsolved : Board.is_solved b = some false :=
      hscan.1 ⟨(x, y), allPts_mem x y h1 h2 h3 h4, hxy⟩
    rw [Board.is_solved] at hsolved
    constructor
    · rw [Board.is_solved, hsolved]
      constructor
      · intro h
        exact absurd (Option.some_inj.mp h) (by simp)
      · intro h
        exact absurd hxy (h.1 x y h1 h2 h3 h4)
    · rw [Board.is_solved, hsolved]
      simp

/-- C3: is_solved returns True exactly when all 81 cells are occupied and
is_valid returns True, never raising; a board with an empty cell is never
solved; and the all-empty board is valid but not solved. -/
theorem claim_C3_is_solved (b : Board) (hwf : BoardWF b) (hc : CellsWF b) :
    (Board.is_solved b = some true ↔
      ((∀ x y : Int, 0 ≤ x → x ≤ 8 → 0 ≤ y → y ≤ 8 → Board.cellAt b x y ≠ none) ∧
        Board.is_valid b = some true)) ∧
    Board.is_solved b ≠ none ∧
    Board.is_valid Board.init = some true ∧
    Board.is_solved Board.init = some false := by
  obtain ⟨hiff, hne⟩ := is_solved_iff b hwf hc
  exact ⟨hiff, hne, by decide, by decide⟩

/-- C3 witness: instantiated at the all-empty board, which indeed is not
solved since for instance cell (0, 0) is empty. -/
theorem claim_C3_is_solved_witness :
    BoardWF Board.init ∧ CellsWF Board.init ∧
      ¬Board.is_solved Board.init = some true :=
  ⟨by decide, by decide, by
    rw [(claim_C3_is_solved Board.init (by decide) (by decide)).1]
    intro h
    exact absurd (by decide : Board.cellAt Board.init 0 0 = none)
      (h.1 0 0 (by decide) (by decide) (by decide) (by decide))⟩

/-- C4: for every well-formed board, every value and every in-range
coordinate pair, writing the cell succeeds and reading it back afterwards
returns exactly the written value. -/
theorem claim_C4_set_get (b : Board) (hwf : BoardWF b) (v : Cell) (x y : Int)
    (hx : 0 ≤ x) (hx8 : x ≤ 8) (hy : 0 ≤ y) (hy8 : y ≤ 8) :
    (Board.set_board_item b v x y).2 = true ∧
      Board.get_board_item (Board.set_board_item b v x y).1 x y = some v := by
  obtain ⟨s, hs, hmem, hswf⟩ := Board.slot_for b hwf x y hx hx8 hy hy8
  constructor
  · rw [Board.set_board_item_eq b s hwf v x y hx hx8 hy hy8 hs]
  · exact Board.get_set_same b hwf v x y hx hx8 hy hy8

/-- C4 witness: writing digit 7 at (4, 5) of the empty board and reading it
back. -/
theorem claim_C4_set_get_witness :
    BoardWF Board.init ∧
      Board.get_board_item (Board.set_board_item Board.init (some 7) 4 5).1 4 5 =
        some (some 7) :=
  ⟨by decide,
    (claim_C4_set_get Board.init (by decide) (some 7) 4 5
      (by decide) (by decide) (by decide) (by decide)).2⟩

/-- C5: an in-range write changes no cell other than the addressed one:
every in-range coordinate pair different from (x, y) reads the same value
after the write as before. -/
theorem claim_C5_set_frame (b : Board) (hwf : BoardWF b) (v : Cell) (x y x2 y2 : Int)
    (hx : 0 ≤ x) (hx8 : x ≤ 8) (hy : 0 ≤ y) (hy8 : y ≤ 8)
    (hx2 : 0 ≤ x2) (hx28 : x2 ≤ 8) (hy2 : 0 ≤ y2) (hy28 : y2 ≤ 8)
    (hne : ¬(x2 = x ∧ y2 = y)) :
    Board.get_board_item (Board.set_board_item b v x y).1 x2 y2 =
      Board.get_board_item b x2 y2 :=
  Board.get_set_frame b hwf v x y x2 y2 hx hx8 hy hy8 hx2 hx28 hy2 hy28 hne

/-- C5 witness: writing at (4, 5) leaves (3, 5) as it was. -/
theorem claim_C5_set_frame_witness :
    BoardWF Board.init ∧
      Board.get_board_item (Board.set_board_item Board.init (some 7) 4 5).1 3 5 =
        Board.get_board_item Board.init 3 5 :=
  ⟨by decide,
    claim_C5_set_frame Board.init (by decide) (some 7) 4 5 3 5
      (by decide) (by decide) (by decide) (by decide)
      (by decide) (by decide) (by decide) (by decide) (by decide)⟩

/-- C6: with x or y outside [0, 8], get_board_item raises, set_board_item
raises, and get_row (for the bad y) and get_column (for the bad x) raise. -/
theorem claim_C6_out_of_range (b : Board) (v : Cell) (x y : Int)
    (h : ¬(0 ≤ x ∧ x ≤ 8 ∧ 0 ≤ y ∧ y ≤ 8)) :
    Board.get_board_item b x y = none ∧
      (Board.set_board_item b v x y).2 = false ∧
      (¬(0 ≤ y ∧ y ≤ 8) → Board.get_row b y = none) ∧
      (¬(0 ≤ x ∧ x ≤ 8) → Board.get_column b x = none) := by
  refine ⟨?_, ?_, ?_, ?_⟩
  · unfold Board.get_board_item
    rw [if_neg h]
  · rw [Board.set_board_item_oob b v x y h]
  · intro hy
    have h0 : Board.get_board_item b 0 y = none := by
      unfold Board.get_board_item
      rw [if_neg (by omega)]
    unfold Board.get_row idx9
    rw [show seqCells (fun x => Board.get_board_item b x y) [0, 1, 2, 3, 4, 5, 6, 7, 8] =
        (match Board.get_board_item b 0 y with
         | none => none
         | some c =>
           match seqCells (fun x => Board.get_board_item b x y) [1, 2, 3, 4, 5, 6, 7, 8] with
           | none => none
           | some cs => some (c :: cs)) from rfl, h0]
  · intro hx
    have h0 : Board.get_board_item b x 0 = none := by
      unfold Board.get_board_item
      rw [if_neg (by omega)]
    unfold Board.get_column idx9
    rw [show seqCells (fun y => Board.get_board_item b x y) [0, 1, 2, 3, 4, 5, 6, 7, 8] =
        (match Board.get_board_item b x 0 with
         | none => none
         | some c =>
           match seqCells (fun y => Board.get_board_item b x y) [1, 2, 3, 4, 5, 6, 7, 8] with
           | none => none
           | some cs => some (c :: cs)) from rfl, h0]

/-- C6 witness: at (9, 0) every accessor fails. -/
theorem claim_C6_out_of_range_witness :
    Board.get_board_item Board.init 9 0 = none ∧
      (Board.set_board_item Board.init (some 1) 9 0).2 = false ∧
      Board.get_column Board.init 9 = none := by
  obtain ⟨h1, h2, -, h4⟩ :=
    claim_C6_out_of_range Board.init (some 1) 9 0 (by decide)
  exact ⟨h1, h2, h4 (by decide)⟩

/-- C10 (implicit): a write at an out-of-range coordinate raises inside the
bounds check of get_at, before any slot is touched, so the failing call
returns the board state completely unchanged. -/
theorem claim_C10_set_atomic (b : Board) (v : Cell) (x y : Int)
    (h : ¬(0 ≤ x ∧ x ≤ 8 ∧ 0 ≤ y ∧ y ≤ 8)) :
    Board.set_board_item b v x y = (b, false) :=
  Board.set_board_item_oob b v x y h

/-- C10 witness: the failing write at (-1, 4) returns the empty board
unchanged. -/
theorem claim_C10_set_atomic_witness :
    Board.set_board_item Board.init (some 3) (-1) 4 = (Board.init, false) :=
  claim_C10_set_atomic Board.init (some 3) (-1) 4 (by decide)

/-- C7 counterexample: set_at performs no bounds check, so at local
coordinates (3, 0) — lx outside [0, 2] — the claimed OutOfRange failure does
not happen: the write succeeds and lands in flat slot 3, which is local
coordinate (0, 1). -/
theorem claim_C7_counterexample :
    Section.set_at Section.init (some 5) 3 0 =
      some ⟨[none, none, none, some 5, none, none, none, none, none]⟩ := by decide

/-- C7 amended: SubGrid set performs no coordinate check at all.  On a
nine-slot SubGrid it fails only when the flat index lx + ly * 3 falls outside
the valid Python index range [-9, 8] of the slot list; any out-of-range
(lx, ly) whose flat index stays in that range is written silently (possibly
aliasing a different slot).  SubGrid get, in contrast, does fail whenever lx
or ly is outside [0, 2]. -/
theorem claim_C7_amended (s : Section) (v : Cell) (lx ly : Int)
    (hlen : s.slots.length = 9) :
    (Section.set_at s v lx ly ≠ none ↔
      (-9 ≤ lx + ly * 3 ∧ lx + ly * 3 ≤ 8)) ∧
    (¬(0 ≤ lx ∧ lx ≤ 2 ∧ 0 ≤ ly ∧ ly ≤ 2) → Section.get_at s lx ly = none) := by
  constructor
  · unfold Section.set_at pySet pyIdx
    rw [hlen]
    by_cases h1 : (0 : Int) ≤ lx + ly * 3 ∧ lx + ly * 3 < ((9 : Nat) : Int)
    · rw [if_pos h1]
      simp only [Option.map_some', ne_eq, reduceCtorEq, not_false_iff, true_iff]
      omega
    · rw [if_neg h1]
      by_cases h2 : -((9 : Nat) : Int) ≤ lx + ly * 3 ∧ lx + ly * 3 < 0
      · rw [if_pos h2]
        simp only [Option.map_some', ne_eq, reduceCtorEq, not_false_iff, true_iff]
        omega
      · rw [if_neg h2]
        constructor
        · intro hne
          exact absurd rfl hne
        · intro hr
          exact absurd hr (by omega)
  · intro h
    unfold Section.get_at
    rw [if_neg h]

/-- C7 amended witness: on the fresh SubGrid the out-of-range write at
(3, 0) has flat index 3 and therefore succeeds. -/
theorem claim_C7_amended_witness :
    Section.init.slots.length = 9 ∧
      (Section.set_at Section.init (some 5) 3 0 ≠ none ↔
        (-9 ≤ (3 : Int) + 0 * 3 ∧ (3 : Int) + 0 * 3 ≤ 8)) :=
  ⟨by decide, (claim_C7_amended Section.init (some 5) 3 0 (by decide)).1⟩

/-- Invariant of the copy loop: the constructed board carries b at the
already-copied coordinates and its previous contents elsewhere. -/
theorem copyLoop_spec (b : Board) (hwf : BoardWF b) (pts : List (Int × Int))
    (hpts : ∀ p ∈ pts, 0 ≤ p.1 ∧ p.1 ≤ 8 ∧ 0 ≤ p.2 ∧ p.2 ≤ 8)
    (nb : Board) (hnwf : BoardWF nb) :
    ∃ nb2, copyLoop b pts nb = some nb2 ∧ BoardWF nb2 ∧
      ∀ x y : Int, 0 ≤ x → x ≤ 8 → 0 ≤ y → y ≤ 8 →
        Board.get_board_item nb2 x y =
          if (x, y) ∈ pts then Board.get_board_item b x y
          else Board.get_board_item nb x y := by
  induction pts generalizing nb with
  | nil =>
    refine ⟨nb, rfl, hnwf, ?_⟩
    intro x y _ _ _ _
    rw [if_neg (List.not_mem_nil _)]
  | cons p rest ih =>
    obtain ⟨px, py⟩ := p
    have hb := hpts (px, py) (by simp)
    have hrest : ∀ q ∈ rest, 0 ≤ q.1 ∧ q.1 ≤ 8 ∧ 0 ≤ q.2 ∧ q.2 ≤ 8 :=
      fun q hq => hpts q (by simp [hq])
    have hget := Board.get_board_item_some b hwf px py hb.1 hb.2.1 hb.2.2.1 hb.2.2.2
    obtain ⟨s, hs, hsmem, hswf⟩ :=
      Board.slot_for nb hnwf px py hb.1 hb.2.1 hb.2.2.1 hb.2.2.2
    have hseteq := Board.set_board_item_eq nb s hnwf (Board.cellAt b px py) px py
      hb.1 hb.2.1 hb.2.2.1 hb.2.2.2 hs
    have hstep : copyLoop b ((px, py) :: rest) nb =
        copyLoop b rest (Board.set_board_item nb (Board.cellAt b px py) px py).1 := by
      rw [show copyLoop b ((px, py) :: rest) nb =
          (match Board.get_board_item b px py with
           | none => none
           | some c =>
             match Board.set_board_item nb c px py with
             | (nb2, true) => copyLoop b rest nb2
             | (_, false) => none) from rfl, hget]
      dsimp only
      rw [hseteq]
    have hnwf1 : BoardWF (Board.set_board_item nb (Board.cellAt b px py) px py).1 :=
      BoardWF_set nb hnwf _ px py
    obtain ⟨nb2, hrun, hwf2, hcells⟩ := ih hrest _ hnwf1
    refine ⟨nb2, by rw [hstep]; exact hrun, hwf2, ?_⟩
    intro x y h1 h2 h3 h4
    rw [hcells x y h1 h2 h3 h4]
    by_cases hin : (x, y) ∈ rest
    · rw [if_pos hin, if_pos (by simp [hin])]
    · rw [if_neg hin]
      by_cases hx : x = px ∧ y = py
      · obtain ⟨rfl, rfl⟩ := hx
        rw [if_pos (by simp),
          Board.get_set_same nb hnwf _ x y hb.1 hb.2.1 hb.2.2.1 hb.2.2.2, hget]
      · rw [if_neg (by
          intro hmem
          rcases List.mem_cons.mp hmem with heq | hmem2
          · exact hx ⟨congrArg Prod.fst heq, congrArg Prod.snd heq⟩
          · exact hin hmem2)]
        exact Board.get_set_frame nb hnwf _ px py x y
          hb.1 hb.2.1 hb.2.2.1 hb.2.2.2 h1 h2 h3 h4 hx

/-- C8: get_copy of a well-formed board succeeds and produces a board with
identical cell values at every in-range coordinate.  The copy is built cell
by cell into a freshly constructed Board, so in this pure embedding (where
boards are immutable values and every write returns a new board value) the
copy and the original share nothing: writing to one cannot change what the
other reads. -/
theorem claim_C8_deep_copy (b : Board) (hwf : BoardWF b) :
    ∃ b2, Board.get_copy b = some b2 ∧ BoardWF b2 ∧
      ∀ x y : Int, 0 ≤ x → x ≤ 8 → 0 ≤ y → y ≤ 8 →
        Board.get_board_item b2 x y = Board.get_board_item b x y := by
  obtain ⟨b2, hrun, hwf2, hcells⟩ :=
    copyLoop_spec b hwf allPts mem_allPts Board.init (by decide)
  refine ⟨b2, hrun, hwf2, ?_⟩
  intro x y h1 h2 h3 h4
  rw [hcells x y h1 h2 h3 h4, if_pos (allPts_mem x y h1 h2 h3 h4)]

/-- C8 witness: copying a board carrying digit 9 at (2, 7) reproduces that
cell. -/
theorem claim_C8_deep_copy_witness :
    BoardWF (Board.set_board_item Board.init (some 9) 2 7).1 ∧
      ∃ b2, Board.get_copy (Board.set_board_item Board.init (some 9) 2 7).1 = some b2 ∧
        BoardWF b2 ∧
        ∀ x y : Int, 0 ≤ x → x ≤ 8 → 0 ≤ y → y ≤ 8 →
          Board.get_board_item b2 x y =
            Board.get_board_item (Board.set_board_item Board.init (some 9) 2 7).1 x y :=
  ⟨by decide, claim_C8_deep_copy (Board.set_board_item Board.init (some 9) 2 7).1 (by decide)⟩

theorem loadLine_cons (b : Board) (c : Char) (rest : List Char) (x y : Int) :
    loadLine b (c :: rest) x y =
      if 9 ≤ x then some b
      else if c = ' ' then loadLine b rest (x + 1) y
      else
        match charToInt c with
        | none => none
        | some n =>
          match Board.set_board_item b (some n) x y with
          | (b2, true) => loadLine b2 rest (x + 1) y
          | (_, false) => none := rfl

theorem loadLines_cons (b : Board) (ln : List Char) (rest : List (List Char)) (y : Int) :
    loadLines b (ln :: rest) y =
      match loadLine b ln 0 y with
      | none => none
      | some b2 => loadLines b2 rest (y + 1) := rfl

/-- Invariant of the inner loader loop: starting at column counter x0 on row
y, the loop succeeds on space-or-digit characters, keeps the board well
formed, and afterwards cell (X, Y) holds the digit of character number
X - x0 of the remaining characters when that character exists, is a digit,
and X ≥ x0 on row y; every other cell is untouched. -/
theorem loadLine_spec (cs : List Char) (b : Board) (x0 y : Int)
    (hwf : BoardWF b) (hx0 : 0 ≤ x0) (hy : 0 ≤ y) (hy8 : y ≤ 8)
    (hchars : ∀ c ∈ cs, c = ' ' ∨ ('0' ≤ c ∧ c ≤ '9')) :
    ∃ b2, loadLine b cs x0 y = some b2 ∧ BoardWF b2 ∧
      ∀ X Y : Int, 0 ≤ X → X ≤ 8 → 0 ≤ Y → Y ≤ 8 →
        Board.get_board_item b2 X Y =
          if Y = y ∧ x0 ≤ X then
            match cs[(X - x0).toNat]? with
            | some c =>
              if c = ' ' then Board.get_board_item b X Y
              else some (some ((c.toNat : Int) - (('0').toNat : Int)))
            | none => Board.get_board_item b X Y
          else Board.get_board_item b X Y := by
  induction cs generalizing b x0 with
  | nil =>
    refine ⟨b, rfl, hwf, ?_⟩
    intro X Y _ _ _ _
    by_cases hc : Y = y ∧ x0 ≤ X
    · rw [if_pos hc, List.getElem?_nil]
    · rw [if_neg hc]
  | cons c rest ih =>
    have hcwf := hchars c (by simp)
    have hrestwf : ∀ c2 ∈ rest, c2 = ' ' ∨ ('0' ≤ c2 ∧ c2 ≤ '9') :=
      fun c2 hc2 => hchars c2 (by simp [hc2])
    by_cases hbreak : 9 ≤ x0
    · refine ⟨b, by rw [loadLine_cons, if_pos hbreak], hwf, ?_⟩
      intro X Y hX hX8 hY hY8
      by_cases hc : Y = y ∧ x0 ≤ X
      · exact absurd hbreak (by omega)
      · rw [if_neg hc]
    · by_cases hsp : c = ' '
      · obtain ⟨b2, hrun, hwf2, hcells⟩ := ih b (x0 + 1) hwf (by omega) hrestwf
        refine ⟨b2, by rw [loadLine_cons, if_neg hbreak, if_pos hsp]; exact hrun, hwf2, ?_⟩
        intro X Y hX hX8 hY hY8
        rw [hcells X Y hX hX8 hY hY8]
        by_cases hc1 : Y = y ∧ x0 ≤ X
        · by_cases hXx0 : X = x0
          · rw [if_neg (by omega : ¬(Y = y ∧ x0 + 1 ≤ X)), if_pos hc1]
            have h0 : ((X : Int) - x0).toNat = 0 := by omega
            rw [h0, List.getElem?_cons_zero]
            dsimp only
            rw [if_pos hsp]
          · have hgt : x0 + 1 ≤ X := by omega
            rw [if_pos ⟨hc1.1, hgt⟩, if_pos hc1]
            have hk : (X - x0).toNat = (X - (x0 + 1)).toNat + 1 := by omega
            rw [hk, List.getElem?_cons_succ]
        · rw [if_neg (fun hh => hc1 ⟨hh.1, by omega⟩), if_neg hc1]
      · have hd : '0' ≤ c ∧ c ≤ '9' := hcwf.resolve_left hsp
        have hci : charToInt c = some ((c.toNat : Int) - (('0').toNat : Int)) := by
          unfold charToInt
          rw [if_pos hd]
        have hx08 : x0 ≤ 8 := by omega
        obtain ⟨s, hs, hsmem, hswf⟩ := Board.slot_for b hwf x0 y hx0 hx08 hy hy8
        have hseteq := Board.set_board_item_eq b s hwf
          (some ((c.toNat : Int) - (('0').toNat : Int))) x0 y hx0 hx08 hy hy8 hs
        have hb1wf : BoardWF (Board.set_board_item b
            (some ((c.toNat : Int) - (('0').toNat : Int))) x0 y).1 :=
          BoardWF_set b hwf _ x0 y
        obtain ⟨b2, hrun, hwf2, hcells⟩ := ih
          (Board.set_board_item b (some ((c.toNat : Int) - (('0').toNat : Int))) x0 y).1
          (x0 + 1) hb1wf (by omega) hrestwf
        have hstep : loadLine b (c :: rest) x0 y =
            loadLine (Board.set_board_item b
              (some ((c.toNat : Int) - (('0').toNat : Int))) x0 y).1 rest (x0 + 1) y := by
          rw [loadLine_cons, if_neg hbreak, if_neg hsp, hci]
          dsimp only
          rw [hseteq]
        refine ⟨b2, by rw [hstep]; exact hrun, hwf2, ?_⟩
        intro X Y hX hX8 hY hY8
        rw [hcells X Y hX hX8 hY hY8]
        have hframe : ∀ X2 Y2 : Int, 0 ≤ X2 → X2 ≤ 8 → 0 ≤ Y2 → Y2 ≤ 8 →
            ¬(X2 = x0 ∧ Y2 = y) →
            Board.get_board_item (Board.set_board_item b
              (some ((c.toNat : Int) - (('0').toNat : Int))) x0 y).1 X2 Y2 =
              Board.get_board_item b X2 Y2 :=
          fun X2 Y2 a1 a2 a3 a4 hne =>
            Board.get_set_frame b hwf _ x0 y X2 Y2 hx0 hx08 hy hy8 a1 a2 a3 a4 hne
        by_cases hc1 : Y = y ∧ x0 ≤ X
        · by_cases hXx0 : X = x0
          · rw [if_neg (by omega : ¬(Y = y ∧ x0 + 1 ≤ X)), if_pos hc1, hc1.1]
            have h0 : ((X : Int) - x0).toNat = 0 := by omega
            rw [h0, List.getElem?_cons_zero]
            dsimp only
            rw [if_neg hsp, hXx0]
            exact Board.get_set_same b hwf _ x0 y hx0 hx08 hy hy8
          · have hgt : x0 + 1 ≤ X := by omega
            rw [if_pos ⟨hc1.1, hgt⟩, if_pos hc1]
            have hk : (X - x0).toNat = (X - (x0 + 1)).toNat + 1 := by omega
            rw [hk, List.getElem?_cons_succ]
            cases hcel : rest[(X - (x0 + 1)).toNat]? with
            | none =>
              exact hframe X Y hX hX8 hY hY8 (fun hh => hXx0 hh.1)
            | some c2 =>
              dsimp only
              by_cases hsp2 : c2 = ' '
              · rw [if_pos hsp2, if_pos hsp2]
                exact hframe X Y hX hX8 hY hY8 (fun hh => hXx0 hh.1)
              · rw [if_neg hsp2, if_neg hsp2]
        · rw [if_neg (fun hh => hc1 ⟨hh.1, by omega⟩), if_neg hc1]
          exact hframe X Y hX hX8 hY hY8 (fun hh => hc1 ⟨hh.2, by omega⟩)

/-- Invariant of the outer loader loop: starting at row counter y0 with all
remaining rows fitting inside the grid, loading succeeds and afterwards cell
(X, Y) holds the digit of character X of line Y - y0 when that character
exists and is a digit; space characters and missing characters leave the
cell untouched. -/
theorem loadLines_spec (lines : List (List Char)) (b : Board) (y0 : Int)
    (hwf : BoardWF b) (hy0 : 0 ≤ y0) (hrows : y0 + lines.length ≤ 9)
    (hchars : ∀ l ∈ lines, ∀ c ∈ l, c = ' ' ∨ ('0' ≤ c ∧ c ≤ '9')) :
    ∃ b2, loadLines b lines y0 = some b2 ∧ BoardWF b2 ∧
      ∀ X Y : Int, 0 ≤ X → X ≤ 8 → 0 ≤ Y → Y ≤ 8 →
        Board.get_board_item b2 X Y =
          if y0 ≤ Y then
            match lines[(Y - y0).toNat]? with
            | some ln =>
              match ln[X.toNat]? with
              | some c =>
                if c = ' ' then Board.get_board_item b X Y
                else some (some ((c.toNat : Int) - (('0').toNat : Int)))
              | none => Board.get_board_item b X Y
            | none => Board.get_board_item b X Y
          else Board.get_board_item b X Y := by
  induction lines generalizing b y0 with
  | nil =>
    refine ⟨b, rfl, hwf, ?_⟩
    intro X Y _ _ _ _
    by_cases hc : y0 ≤ Y
    · rw [if_pos hc, List.getElem?_nil]
    · rw [if_neg hc]
  | cons ln rest ih =>
    have hlnwf : ∀ c ∈ ln, c = ' ' ∨ ('0' ≤ c ∧ c ≤ '9') := hchars ln (by simp)
    have hrestwf : ∀ l ∈ rest, ∀ c ∈ l, c = ' ' ∨ ('0' ≤ c ∧ c ≤ '9') :=
      fun l hl => hchars l (by simp [hl])
    have hlen : (ln :: rest).length = rest.length + 1 := by simp
    have hy08 : y0 ≤ 8 := by rw [hlen] at hrows; omega
    obtain ⟨b1, hrunL, hwf1, hcellsL⟩ :=
      loadLine_spec ln b 0 y0 hwf le_rfl hy0 hy08 hlnwf
    obtain ⟨b2, hrun2, hwf2, hcells2⟩ := ih b1 (y0 + 1) hwf1 (by omega)
      (by rw [hlen] at hrows; omega) hrestwf
    refine ⟨b2, ?_, hwf2, ?_⟩
    · rw [loadLines_cons, hrunL]
      exact hrun2
    · intro X Y hX hX8 hY hY8
      rw [hcells2 X Y hX hX8 hY hY8]
      have hb1 : Y ≠ y0 → Board.get_board_item b1 X Y = Board.get_board_item b X Y := by
        intro hne
        rw [hcellsL X Y hX hX8 hY hY8, if_neg (fun hh => hne hh.1)]
      by_cases hylt : y0 ≤ Y
      · by_cases hyeq : Y = y0
        · rw [if_neg (by omega : ¬(y0 + 1 ≤ Y)), if_pos hylt]
          have h0 : ((Y : Int) - y0).toNat = 0 := by omega
          rw [h0, List.getElem?_cons_zero]
          dsimp only
          rw [hcellsL X Y hX hX8 hY hY8, if_pos ⟨hyeq, hX⟩]
          have hx0 : ((X : Int) - 0).toNat = X.toNat := by omega
          rw [hx0]
        · have hgt : y0 + 1 ≤ Y := by omega
          rw [if_pos hgt, if_pos hylt]
          have hk : (Y - y0).toNat = (Y - (y0 + 1)).toNat + 1 := by omega
          rw [hk, List.getElem?_cons_succ]
          cases hrow : rest[(Y - (y0 + 1)).toNat]? with
          | none => exact hb1 hyeq
          | some ln2 =>
            dsimp only
            cases hch : ln2[X.toNat]? with
            | none => exact hb1 hyeq
            | some c2 =>
              dsimp only
              by_cases hsp2 : c2 = ' '
              · rw [if_pos hsp2, if_pos hsp2]
                exact hb1 hyeq
              · rw [if_neg hsp2, if_neg hsp2]
      · rw [if_neg (by omega : ¬(y0 + 1 ≤ Y)), if_neg hylt]
        exact hb1 (by omega)

/-- C9 counterexample: rows beyond the ninth are NOT ignored.  On a file of
nine empty lines followed by a tenth line containing the single character 1,
load_board raises OutOfRange (the write goes to row index 9) instead of
ignoring the extra row. -/
theorem claim_C9_counterexample :
    Board.load_board Board.init (List.replicate 9 [] ++ [['1']]) = none := by decide

/-- C9 amended: for an input of at most nine rows whose characters are
spaces or digits, loading succeeds, never writes outside the grid, ignores
characters beyond the ninth column, leaves the cells of space characters and
of missing characters (short rows) untouched, and sets cell (x, y) to digit
d exactly when line y has the character of digit d at column x.  Rows beyond
the ninth, however, are not ignored: the first non-space character on a row
with index at least 9 makes load_board raise OutOfRange (see the
counterexample), which is why the at-most-nine-rows bound is required. -/
theorem claim_C9_load_board (b : Board) (hwf : BoardWF b) (lines : List (List Char))
    (hrows : lines.length ≤ 9)
    (hchars : ∀ l ∈ lines, ∀ c ∈ l, c = ' ' ∨ ('0' ≤ c ∧ c ≤ '9')) :
    ∃ b2, Board.load_board b lines = some b2 ∧
      ∀ x y : Int, 0 ≤ x → x ≤ 8 → 0 ≤ y → y ≤ 8 →
        Board.get_board_item b2 x y =
          match textCharAt lines x.toNat y.toNat with
          | some c =>
            if c = ' ' then Board.get_board_item b x y
            else some (some ((c.toNat : Int) - (('0').toNat : Int)))
          | none => Board.get_board_item b x y := by
  obtain ⟨b2, hrun, hwf2, hcells⟩ :=
    loadLines_spec lines b 0 hwf le_rfl (by omega) hchars
  refine ⟨b2, hrun, ?_⟩
  intro x y h1 h2 h3 h4
  rw [hcells x y h1 h2 h3 h4, if_pos h3]
  have h0 : ((y : Int) - 0).toNat = y.toNat := by omega
  rw [h0]
  unfold textCharAt
  cases hl : lines[y.toNat]? with
  | none => rfl
  | some ln =>
    dsimp only [Option.bind]

/-- C9 witness: loading the single line "5 3" into the empty board satisfies
the hypotheses and the characterization. -/
theorem claim_C9_load_board_witness :
    BoardWF Board.init ∧
      (([['5', ' ', '3']] : List (List Char)).length ≤ 9) ∧
      (∃ b2, Board.load_board Board.init [['5', ' ', '3']] = some b2 ∧
        ∀ x y : Int, 0 ≤ x → x ≤ 8 → 0 ≤ y → y ≤ 8 →
          Board.get_board_item b2 x y =
            match textCharAt [['5', ' ', '3']] x.toNat y.toNat with
            | some c =>
              if c = ' ' then Board.get_board_item Board.init x y
              else some (some ((c.toNat : Int) - (('0').toNat : Int)))
            | none => Board.get_board_item Board.init x y) :=
  ⟨by decide, by decide,
    claim_C9_load_board Board.init (by decide) [['5', ' ', '3']] (by decide) (by decide)⟩
